import Mathlib

/-!
Shallow embedding of `src/security/policy.rs` from the zeroclaw repository.

Strings are modelled as `List Char` (the character sequence of a Rust
`String`/`&str`).  Each definition below is translated from the corresponding
Rust function; the doc comment of each definition names its source.
-/

namespace ZeroClaw

/-- The character list underlying a string literal. -/
def str (s : String) : List Char := s.data

/-- Shorthand for the model of Rust strings. -/
abbrev Str := List Char

/-- The `'\0'` sentinel the Rust code uses as a segment separator
(`"\x00"` in `policy.rs`). -/
def nulChar : Char := '\x00'

/-- The backtick character (ASCII 96), written via its code point. -/
def backtick : Char := Char.ofNat 96

/-- Models Rust `char::is_whitespace`: the Unicode `White_Space` property.
The full (finite) set of code points with that property. -/
def isWhitespaceChar (c : Char) : Bool :=
  [0x09, 0x0A, 0x0B, 0x0C, 0x0D, 0x20, 0x85, 0xA0, 0x1680,
   0x2000, 0x2001, 0x2002, 0x2003, 0x2004, 0x2005, 0x2006, 0x2007,
   0x2008, 0x2009, 0x200A, 0x2028, 0x2029, 0x202F, 0x205F, 0x3000].contains c.toNat

/-- Models Rust `char::to_ascii_lowercase`. -/
def toAsciiLowerChar (c : Char) : Char :=
  if 'A' ≤ c ∧ c ≤ 'Z' then Char.ofNat (c.toNat + 32) else c

/-- Models Rust `str::to_ascii_lowercase`. -/
def toAsciiLower (s : Str) : Str := s.map toAsciiLowerChar

/-- Models Rust `str::trim_start` (drop leading whitespace). -/
def trimStart (s : Str) : Str := s.dropWhile isWhitespaceChar

/-- Models Rust `str::trim` (drop leading and trailing whitespace). -/
def trim (s : Str) : Str :=
  ((s.dropWhile isWhitespaceChar).reverse.dropWhile isWhitespaceChar).reverse

/-- Models Rust `str::split(char)`: split at every occurrence of `sep`,
keeping empty pieces (`"a\0\0b"` → `["a", "", "b"]`, `""` → `[""]`). -/
def splitOnChar (sep : Char) : Str → List Str
  | [] => [[]]
  | c :: cs =>
    if c = sep then [] :: splitOnChar sep cs
    else
      match splitOnChar sep cs with
      | [] => [[c]]
      | s :: ss => (c :: s) :: ss

/-- Accumulator loop for `splitWhitespace`: `cur` is the reversed current
token (empty when between tokens). -/
def splitWhitespaceAux (cur : Str) : Str → List Str
  | [] => if cur.isEmpty then [] else [cur.reverse]
  | c :: cs =>
    if isWhitespaceChar c then
      if cur.isEmpty then splitWhitespaceAux [] cs
      else cur.reverse :: splitWhitespaceAux [] cs
    else splitWhitespaceAux (c :: cur) cs

/-- Models Rust `str::split_whitespace`: the maximal runs of
non-whitespace characters, in order. -/
def splitWhitespace (s : Str) : List Str := splitWhitespaceAux [] s

/-- Models Rust `str::split_whitespace().next()`: the first whitespace-separated
token, if any (drop leading whitespace, then take the non-whitespace run). -/
def firstWord (s : Str) : Option Str :=
  match s.dropWhile isWhitespaceChar with
  | [] => none
  | c :: rest => some ((c :: rest).takeWhile (fun ch => !isWhitespaceChar ch))

/-- Models Rust `str::contains(&str)` (substring / infix search). -/
def hasSub : Str → Str → Bool
  | [], pat => pat.isEmpty
  | c :: tail, pat => pat.isPrefixOf (c :: tail) || hasSub tail pat

/-- Models Rust `s.rsplit('/').next().unwrap_or("")`: the suffix after the
last `'/'` (the whole string when there is no `'/'`). -/
def rsplitSlashLast (s : Str) : Str :=
  (s.reverse.takeWhile (fun c => c != '/')).reverse

/-- Models Rust `String::replace(char, "\x00")`-style single-character
replacement (replacement string of length one, hence a map). -/
def replaceChar (old new : Char) (s : Str) : Str :=
  s.map (fun c => if c = old then new else c)

/-- Fuel-indexed loop for `replaceSub`.  For a non-empty pattern every step
consumes at least one character of the subject, so fuel equal to the
subject's length always suffices (see `replaceSubGo_fuel_irrel`). -/
def replaceSubGo (pat rep : Str) : Nat → Str → Str
  | _, [] => []
  | 0, s => s
  | fuel + 1, c :: cs =>
    if pat.isPrefixOf (c :: cs) then
      rep ++ replaceSubGo pat rep fuel ((c :: cs).drop pat.length)
    else
      c :: replaceSubGo pat rep fuel cs

/-- Models Rust `String::replace(pat, rep)` for a non-empty pattern:
replace non-overlapping occurrences left to right.  (The Rust code only
calls this with the patterns `"&&"` and `"||"`.) -/
def replaceSub (pat rep s : Str) : Str := replaceSubGo pat rep s.length s

/-- One Rust loop iteration's test: the first word is an environment
assignment (contains `'='` and starts with an ASCII letter or `'_'`). -/
def isEnvAssignment (w : Str) : Bool :=
  w.contains '=' &&
    (match w.head? with
     | some c0 => c0.isAlpha || c0 == '_'
     | none => false)

/-- Fuel-indexed loop for `skip_env_assignments`.  Each iteration drops a
non-empty first word, hence at least one character, so fuel equal to the
string's length always suffices. -/
def skipEnvGo : Nat → Str → Str
  | 0, s => s
  | fuel + 1, s =>
    match firstWord s with
    | none => s
    | some w =>
      if isEnvAssignment w then skipEnvGo fuel (trimStart (s.drop w.length))
      else s

/-- Models `skip_env_assignments` from `policy.rs`: repeatedly drop a leading
whitespace token that contains `'='` and starts with an ASCII letter or `'_'`
(the Rust code slices `rest[word.len()..]` and then `trim_start`s). -/
def skip_env_assignments (s : Str) : Str := skipEnvGo s.length s

/-- `AutonomyLevel` from `policy.rs`. -/
inductive AutonomyLevel
  | readOnly
  | supervised
  | full
deriving DecidableEq

/-- `CommandRiskLevel` from `policy.rs`. -/
inductive CommandRiskLevel
  | low
  | medium
  | high
deriving DecidableEq

/-- `SecurityPolicy` from `policy.rs`.  The `tracker : ActionTracker` field is
modelled separately as explicit state (see the action-tracker section), since
it is the only mutable part of the policy. -/
structure SecurityPolicy where
  autonomy : AutonomyLevel
  workspace_dir : Str
  workspace_only : Bool
  allowed_commands : List Str
  forbidden_paths : List Str
  max_actions_per_hour : Nat
  max_cost_per_day_cents : Nat
  require_approval_for_medium_risk : Bool
  block_high_risk_commands : Bool

/-- `SecurityPolicy::default()` from `policy.rs` (configuration fields). -/
def defaultPolicy : SecurityPolicy where
  autonomy := .supervised
  workspace_dir := str "."
  workspace_only := false
  allowed_commands :=
    [str "ls", str "cat", str "grep", str "find",
     str "echo", str "pwd", str "wc", str "head",
     str "tail", str "sort", str "uniq", str "tr",
     str "cut", str "awk", str "sed", str "tee",
     str "xargs", str "env", str "which", str "file",
     str "stat", str "date", str "whoami", str "hostname",
     str "uname", str "df", str "du", str "ps",
     str "top", str "lsof", str "killall",
     str "mkdir", str "touch", str "cp", str "mv",
     str "rm", str "ln", str "chmod", str "chown",
     str "tar", str "zip", str "unzip", str "gzip",
     str "gunzip", str "trash",
     str "git", str "cargo", str "rustc", str "rustup",
     str "npm", str "npx", str "node", str "yarn",
     str "pnpm", str "bun", str "deno",
     str "python3", str "python", str "pip3", str "pip",
     str "go", str "make", str "cmake", str "gcc",
     str "brew", str "apt", str "apt-get", str "dnf",
     str "curl", str "wget", str "ssh", str "scp",
     str "rsync", str "ping", str "dig", str "nslookup",
     str "sudo", str "launchctl", str "open",
     str "defaults", str "diskutil", str "softwareupdate",
     str "pmset", str "networksetup", str "scutil",
     str "docker", str "docker-compose", str "podman",
     str "kubectl", str "helm", str "terraform"]
  forbidden_paths := [str "/boot", str "/dev", str "/proc", str "/sys"]
  max_actions_per_hour := 100
  max_cost_per_day_cents := 500
  require_approval_for_medium_risk := true
  block_high_risk_commands := false

/-- The separator normalization shared by `command_risk_level`,
`is_catastrophic` and `is_command_allowed` in `policy.rs`: replace `"&&"`,
then `"||"`, then `'\n'`, `';'`, `'|'` by the `'\0'` sentinel (in that order,
exactly as the Rust loops do). -/
def normalizeSeps (c : Str) : Str :=
  replaceChar '|' nulChar
    (replaceChar ';' nulChar
      (replaceChar '\n' nulChar
        (replaceSub (str "||") [nulChar]
          (replaceSub (str "&&") [nulChar] c))))

/-- The segments `normalized.split('\x00')` iterated by the Rust loops. -/
def segmentsOf (c : Str) : List Str := splitOnChar nulChar (normalizeSeps c)

/-- The per-segment allowlist check: the body of the `for segment in ...` loop
of `is_command_allowed` in `policy.rs` (`true` means the loop continues). -/
def seg_allowed_check (p : SecurityPolicy) (segment : Str) : Bool :=
  let seg := trim segment
  if seg.isEmpty then true
  else
    let cmdPart := skip_env_assignments seg
    let baseCmd := rsplitSlashLast ((firstWord cmdPart).getD [])
    if baseCmd.isEmpty then true
    else p.allowed_commands.contains baseCmd

/-- The `has_cmd` per-segment test of `is_command_allowed` in `policy.rs`:
the segment has a first whitespace token (after trimming and skipping env
assignments), and that token is non-empty. -/
def seg_has_cmd (segment : Str) : Bool :=
  match firstWord (skip_env_assignments (trim segment)) with
  | some w => !w.isEmpty
  | none => false

/-- `SecurityPolicy::is_command_allowed` from `policy.rs`. -/
def is_command_allowed (p : SecurityPolicy) (command : Str) : Bool :=
  if p.autonomy = .readOnly then false
  else if command.contains backtick || hasSub command (str "$(")
      || hasSub command (str "$\x7b") then false
  else if command.contains '>' then false
  else
    (segmentsOf command).all (seg_allowed_check p) &&
      (segmentsOf command).any seg_has_cmd

/-- The fixed high-risk base-command set of `command_risk_level` in
`policy.rs`. -/
def isHighRiskBase (base : Str) : Bool :=
  [str "rm", str "mkfs", str "dd", str "shutdown", str "reboot", str "halt",
   str "poweroff", str "sudo", str "su", str "chown", str "chmod",
   str "useradd", str "userdel", str "usermod", str "passwd", str "mount",
   str "umount", str "iptables", str "ufw", str "firewall-cmd", str "curl",
   str "wget", str "nc", str "ncat", str "netcat", str "scp", str "ssh",
   str "ftp", str "telnet"].contains base

/-- The fork-bomb signature `":(){:|:&};:"` from `policy.rs`. -/
def forkBomb : Str := str ":(){:|:&};:"

/-- The medium-risk test of `command_risk_level` in `policy.rs`, on the
lowercased base command and lowercased argument tokens. -/
def isMediumRiskSeg (base : Str) (args : List Str) : Bool :=
  if base = str "git" then
    (args.head?).elim false fun verb =>
      [str "commit", str "push", str "reset", str "clean", str "rebase",
       str "merge", str "cherry-pick", str "revert", str "branch",
       str "checkout", str "switch", str "tag"].contains verb
  else if base = str "npm" || base = str "pnpm" || base = str "yarn" then
    (args.head?).elim false fun verb =>
      [str "install", str "add", str "remove", str "uninstall", str "update",
       str "publish"].contains verb
  else if base = str "cargo" then
    (args.head?).elim false fun verb =>
      [str "add", str "remove", str "install", str "clean",
       str "publish"].contains verb
  else if base = str "touch" || base = str "mkdir" || base = str "mv"
      || base = str "cp" || base = str "ln" then true
  else false

/-- The per-segment outcome of one iteration of the `command_risk_level`
loop: escalate to High, set the `saw_medium` flag, or do nothing. -/
inductive SegRiskStep
  | high
  | medium
  | low
deriving DecidableEq

/-- One iteration of the `for segment in ...` loop of `command_risk_level`
in `policy.rs`. -/
def segRiskStep (segment : Str) : SegRiskStep :=
  let seg := trim segment
  if seg.isEmpty then .low
  else
    let cmdPart := skip_env_assignments seg
    match splitWhitespace cmdPart with
    | [] => .low
    | baseRaw :: argsRaw =>
      let base := toAsciiLower (rsplitSlashLast baseRaw)
      let args := argsRaw.map toAsciiLower
      let joinedSegment := toAsciiLower cmdPart
      if isHighRiskBase base then .high
      else if hasSub joinedSegment (str "rm -rf /")
          || hasSub joinedSegment (str "rm -fr /")
          || hasSub joinedSegment forkBomb then .high
      else if isMediumRiskSeg base args then .medium
      else .low

/-- The `command_risk_level` loop with its `saw_medium` accumulator
(`m`), returning on the first High segment. -/
def riskLoop : List Str → Bool → CommandRiskLevel
  | [], m => if m then .medium else .low
  | seg :: rest, m =>
    match segRiskStep seg with
    | .high => .high
    | .medium => riskLoop rest true
    | .low => riskLoop rest m

/-- `SecurityPolicy::command_risk_level` from `policy.rs` (the `&self`
receiver is unused by the Rust code, so it is omitted here). -/
def command_risk_level (command : Str) : CommandRiskLevel :=
  riskLoop (segmentsOf command) false

/-- The recursive+force flag test of the `rm` arm of `is_catastrophic` in
`policy.rs`, over all whitespace tokens of the (lowercased) segment. -/
def hasRfFlag (words : List Str) : Bool :=
  words.any fun w =>
    w = str "-rf" || w = str "-fr" ||
      (w.head? == some '-' && w.contains 'r' && w.contains 'f')

/-- The root-target test of the `rm` arm of `is_catastrophic` in
`policy.rs`. -/
def targetsRoot (words : List Str) : Bool :=
  words.any fun w => w = str "/" || w = str "/*"

/-- The per-segment test of the `for segment in ...` loop of
`is_catastrophic` in `policy.rs` (the input is already lowercased). -/
def catastrophicSeg (segment : Str) : Bool :=
  match splitWhitespace segment with
  | [] => false
  | first :: _ =>
    let base := rsplitSlashLast first
    if base = str "shutdown" || base = str "reboot" || base = str "halt"
        || base = str "poweroff" then true
    else if (str "mkfs").isPrefixOf base then true
    else if base = str "rm" then
      hasRfFlag (splitWhitespace segment) && targetsRoot (splitWhitespace segment)
    else false

/-- `SecurityPolicy::is_catastrophic` from `policy.rs` (an associated
function: it takes no `self`). -/
def is_catastrophic (command : Str) : Bool :=
  let lower := toAsciiLower command
  if hasSub lower forkBomb then true
  else if hasSub lower (str "dd ") && hasSub lower (str "of=/dev/") then true
  else (splitOnChar nulChar (normalizeSeps lower)).any catastrophicSeg

/-- `SecurityPolicy::validate_command_execution` from `policy.rs`.  Rust's
`Result<CommandRiskLevel, String>` becomes `Except Str CommandRiskLevel`. -/
def validate_command_execution (p : SecurityPolicy) (command : Str)
    (approved : Bool) : Except Str CommandRiskLevel :=
  if !(is_command_allowed p command) then
    .error (str "Command not allowed by security policy: " ++ command)
  else if is_catastrophic command then
    .error (str "Command permanently blocked: \x60" ++ command ++
      str "\x60 is catastrophic and cannot be executed even with approval.")
  else
    let risk := command_risk_level command
    if risk = .high ∧ p.autonomy = .supervised ∧ approved = false then
      .error (str "APPROVAL_REQUIRED: High-risk command \x60" ++ command ++
        str "\x60. Ask the user for explicit approval before proceeding.")
    else if risk = .medium ∧ p.autonomy = .supervised ∧
        p.require_approval_for_medium_risk = true ∧ approved = false then
      .error (str "APPROVAL_REQUIRED: Medium-risk command \x60" ++ command ++
        str "\x60. Ask the user for explicit approval before proceeding.")
    else .ok risk

/-- `SecurityPolicy::can_act` from `policy.rs`. -/
def can_act (p : SecurityPolicy) : Bool :=
  p.autonomy ≠ .readOnly

/-- Is an `Except` value an error?  (Used to state that validation denies a
command.) -/
def isErr : Except Str CommandRiskLevel → Bool
  | .error _ => true
  | .ok _ => false

deriving instance DecidableEq for Except

/-! ### Path model

Unix semantics of `std::path::Path` (`components`, `is_absolute`,
`starts_with`, `PathBuf::join`), as used by `is_path_allowed` and
`is_resolved_path_allowed`.  The ambient environment enters as explicit
parameters: `home` models `std::env::var("HOME")` and `canon` models
`Path::canonicalize` (which is filesystem-dependent; `none` models `Err`). -/

/-- A parsed path component (`std::path::Component`, Unix: no prefixes). -/
inductive PathComponent
  | rootDir
  | curDir
  | parentDir
  | normal (name : Str)
deriving DecidableEq

/-- Is a component the parent-directory marker? -/
def isParentDir : PathComponent → Bool
  | .parentDir => true
  | _ => false

/-- The non-empty slash-separated pieces of a path (repeated and trailing
separators collapse, as in `Path::components`). -/
def pathParts (p : Str) : List Str :=
  (splitOnChar '/' p).filter (fun part => !part.isEmpty)

/-- Map body pieces to components: `".."` is `ParentDir`, `"."` is dropped
(`Path::components` keeps a leading `"."` only on root-less paths). -/
def mapPathParts (parts : List Str) : List PathComponent :=
  parts.filterMap fun part =>
    if part = str ".." then some .parentDir
    else if part = str "." then none
    else some (.normal part)

/-- Models `Path::new(p).components()` on Unix. -/
def pathComponents (p : Str) : List PathComponent :=
  if p.head? = some '/' then .rootDir :: mapPathParts (pathParts p)
  else
    match pathParts p with
    | part :: rest =>
      if part = str "." then .curDir :: mapPathParts rest
      else mapPathParts (part :: rest)
    | [] => []

/-- Models `Path::is_absolute` on Unix (the path has a root). -/
def isAbsolutePath (p : Str) : Bool := p.head? == some '/'

/-- Models `Path::starts_with`: component-wise prefix. -/
def pathStartsWith (child base : Str) : Bool :=
  decide (pathComponents base <+: pathComponents child)

/-- Models `PathBuf::from(a).join(b)` on Unix, at the string level. -/
def pathJoin (a b : Str) : Str :=
  if isAbsolutePath b then b
  else if a.isEmpty then b
  else if a.getLast? == some '/' then a ++ b
  else a ++ '/' :: b

/-- The `~/` expansion performed twice inside `is_path_allowed` in
`policy.rs`: `path.strip_prefix("~/")` joined onto `$HOME` when the latter is
set.  `home` models `std::env::var("HOME").ok()`. -/
def expandTilde (home : Option Str) (p : Str) : Str :=
  if (str "~/").isPrefixOf p then
    match home with
    | some h => pathJoin h (p.drop 2)
    | none => p
  else p

/-- `SecurityPolicy::is_path_allowed` from `policy.rs`.  The lowercasing of
the encoded-traversal check models `str::to_lowercase`, which agrees with
ASCII lowercasing on all ASCII input (non-ASCII case mapping is not needed by
any path below). -/
def is_path_allowed (p : SecurityPolicy) (home : Option Str) (path : Str) :
    Bool :=
  if path.contains '\x00' then false
  else if (pathComponents path).any isParentDir then false
  else if hasSub (toAsciiLower path) (str "..%2f")
      || hasSub (toAsciiLower path) (str "%2f..") then false
  else
    let expanded := expandTilde home path
    if p.workspace_only && isAbsolutePath expanded then false
    else if p.forbidden_paths.any
        (fun forbidden => pathStartsWith expanded (expandTilde home forbidden))
      then false
    else true

/-- `SecurityPolicy::is_resolved_path_allowed` from `policy.rs`:
`workspace_dir.canonicalize().unwrap_or(workspace_dir)` must be a
component-wise prefix of the already-resolved path.  `canon` models
`Path::canonicalize`. -/
def is_resolved_path_allowed (p : SecurityPolicy) (canon : Str → Option Str)
    (resolved : Str) : Bool :=
  pathStartsWith resolved ((canon p.workspace_dir).getD p.workspace_dir)

/-! ### Action tracker model

`ActionTracker` from `policy.rs` holds a `Vec<Instant>` behind a mutex; here
the timestamp list is explicit state and `Instant::now()` is an explicit
`now` parameter.  Time is modelled in whole seconds (the code's window is
`Duration::from_secs(3600)`). -/

/-- The pruning cutoff: `Instant::now() - 3600s`, models `checked_sub`
falling back to `now` itself when the subtraction underflows. -/
def windowCutoff (now : Nat) : Nat :=
  if 3600 ≤ now then now - 3600 else now

/-- The `actions.retain(|t| *t > cutoff)` pruning of the one-hour window. -/
def pruneWindow (now : Nat) (ts : List Nat) : List Nat :=
  ts.filter (fun t => decide (windowCutoff now < t))

/-- `ActionTracker::record` from `policy.rs`: prune, push `now`, return the
new length (plus the updated state). -/
def tracker_record (now : Nat) (ts : List Nat) : Nat × List Nat :=
  let pruned := pruneWindow now ts ++ [now]
  (pruned.length, pruned)

/-- `ActionTracker::count` from `policy.rs`: prune and return the length
without recording (pruning still updates the state). -/
def tracker_count (now : Nat) (ts : List Nat) : Nat × List Nat :=
  let pruned := pruneWindow now ts
  (pruned.length, pruned)

/-- `SecurityPolicy::record_action` from `policy.rs`: record and return
whether the new count is within `max_actions_per_hour`. -/
def record_action (p : SecurityPolicy) (now : Nat) (ts : List Nat) :
    Bool × List Nat :=
  let r := tracker_record now ts
  (decide (r.1 ≤ p.max_actions_per_hour), r.2)

/-- `SecurityPolicy::is_rate_limited` from `policy.rs`: count (without
recording) and compare with `max_actions_per_hour`. -/
def is_rate_limited (p : SecurityPolicy) (now : Nat) (ts : List Nat) :
    Bool × List Nat :=
  let r := tracker_count now ts
  (decide (p.max_actions_per_hour ≤ r.1), r.2)

/-- The counts returned by a sequence of `ActionTracker::record` calls at
the given times, threading the tracker state. -/
def tracker_record_seq : List Nat → List Nat → List Nat
  | [], _ => []
  | t :: rest, ts =>
    let r := tracker_record t ts
    r.1 :: tracker_record_seq rest r.2

/-- The results of a sequence of `record_action` calls at the given times,
threading the tracker state. -/
def record_action_seq (p : SecurityPolicy) : List Nat → List Nat → List Bool
  | [], _ => []
  | t :: rest, ts =>
    let r := record_action p t ts
    r.1 :: record_action_seq p rest r.2

/-! ### Command composition

Machinery for stating the composition claims: commands formed by joining
segments with the shell control operators the code splits on. -/

/-- A shell control operator the Rust code treats as a command separator. -/
inductive Sep
  | semi
  | andand
  | oror
  | pipe
  | newline
deriving DecidableEq

/-- The character sequence of a separator. -/
def sepStr : Sep → Str
  | .semi => str ";"
  | .andand => str "&&"
  | .oror => str "||"
  | .pipe => str "|"
  | .newline => str "\n"

/-- A command formed by joining the segments `first, rest₁.2, rest₂.2, …`
with the separators `rest₁.1, rest₂.1, …` interleaved. -/
def joinCmd : Str → List (Sep × Str) → Str
  | first, [] => first
  | first, (sep, s) :: rest => first ++ sepStr sep ++ joinCmd s rest

/-- A string free of every separator-forming character: none of `';'`,
`'|'`, `'&'`, newline, or the `'\0'` sentinel occurs in it.  Such a string
passes through the separator normalization unchanged and stays one
segment. -/
def sepFree (s : Str) : Bool :=
  !(s.contains ';' || s.contains '|' || s.contains '&' ||
    s.contains '\n' || s.contains nulChar)

/-- A segment free of injection markers as well as separator-forming
characters, and non-empty: no backtick, `'>'`, `"$("` or `"${"`, and
`sepFree`. -/
def cleanSeg (s : Str) : Bool :=
  !s.isEmpty && sepFree s && !s.contains backtick && !s.contains '>' &&
    !hasSub s (str "$(") && !hasSub s (str "$\x7b")

/-- The base command `is_command_allowed` extracts from a segment: first
whitespace token after trimming and env-assignment skipping, reduced to its
basename. -/
def baseOf (s : Str) : Str :=
  rsplitSlashLast ((firstWord (skip_env_assignments (trim s))).getD [])

/-! ### Basic lemmas about the string primitives -/

theorem contains_iff_mem {l : List Char} {c : Char} :
    l.contains c = true ↔ c ∈ l := List.elem_iff

theorem contains_eq_false_iff {l : List Char} {c : Char} :
    l.contains c = false ↔ c ∉ l := by
  rw [← Bool.not_eq_true, not_iff_not]
  exact contains_iff_mem

theorem replaceChar_append (o n : Char) (a b : Str) :
    replaceChar o n (a ++ b) = replaceChar o n a ++ replaceChar o n b :=
  List.map_append _ a b

theorem replaceChar_eq_self {o : Char} (n : Char) {s : Str} (h : o ∉ s) :
    replaceChar o n s = s := by
  induction s with
  | nil => rfl
  | cons c cs ih =>
    simp only [List.mem_cons, not_or] at h
    simp only [replaceChar, List.map_cons]
    rw [if_neg (fun hc => h.1 hc.symm)]
    have := ih h.2
    simp only [replaceChar] at this
    rw [this]

theorem replaceSubGo_nil (pat rep : Str) (fuel : Nat) :
    replaceSubGo pat rep fuel [] = [] := by
  cases fuel <;> rfl

theorem replaceSub_nil (pat rep : Str) : replaceSub pat rep [] = [] := rfl

theorem replaceSubGo_fuel_irrel {x : Char} {ps rep : Str} :
    ∀ (f g : Nat) (s : Str), s.length ≤ f → s.length ≤ g →
      replaceSubGo (x :: ps) rep f s = replaceSubGo (x :: ps) rep g s := by
  intro f
  induction f with
  | zero =>
    intro g s hf _
    have hs : s = [] := List.length_eq_zero.mp (Nat.le_zero.mp hf)
    subst hs
    rw [replaceSubGo_nil, replaceSubGo_nil]
  | succ f ih =>
    intro g s hf hg
    cases s with
    | nil => rw [replaceSubGo_nil, replaceSubGo_nil]
    | cons c cs =>
      cases g with
      | zero => simp at hg
      | succ g =>
        simp only [replaceSubGo]
        simp only [List.length_cons] at hf hg
        by_cases hp : (x :: ps).isPrefixOf (c :: cs) = true
        · rw [if_pos hp, if_pos hp]
          congr 1
          apply ih
          · simp only [List.length_drop, List.length_cons]
            omega
          · simp only [List.length_drop, List.length_cons]
            omega
        · rw [if_neg hp, if_neg hp]
          congr 1
          exact ih g cs (by omega) (by omega)

theorem replaceSub_cons (x : Char) (ps rep : Str) (c : Char) (cs : Str) :
    replaceSub (x :: ps) rep (c :: cs)
      = if (x :: ps).isPrefixOf (c :: cs) then
          rep ++ replaceSub (x :: ps) rep ((c :: cs).drop (x :: ps).length)
        else c :: replaceSub (x :: ps) rep cs := by
  unfold replaceSub
  show replaceSubGo (x :: ps) rep (cs.length + 1) (c :: cs) = _
  simp only [replaceSubGo]
  by_cases hp : (x :: ps).isPrefixOf (c :: cs) = true
  · rw [if_pos hp, if_pos hp]
    congr 1
    apply replaceSubGo_fuel_irrel
    · simp only [List.length_drop, List.length_cons]
      omega
    · exact Nat.le_refl _
  · rw [if_neg hp, if_neg hp]

theorem replaceSub_append_left {x : Char} {ps rep a : Str} (b : Str)
    (hx : x ∉ a) :
    replaceSub (x :: ps) rep (a ++ b) = a ++ replaceSub (x :: ps) rep b := by
  induction a with
  | nil => rfl
  | cons c cs ih =>
    simp only [List.mem_cons, not_or] at hx
    show replaceSub (x :: ps) rep (c :: (cs ++ b)) = _
    rw [replaceSub_cons]
    have hpre : ¬ ((x :: ps).isPrefixOf (c :: (cs ++ b)) = true) := by
      intro hcontra
      rw [List.isPrefixOf_iff_prefix] at hcontra
      rcases hcontra with ⟨t, ht⟩
      simp only [List.cons_append, List.cons.injEq] at ht
      exact hx.1 ht.1
    rw [if_neg hpre, ih hx.2]
    rfl

theorem replaceSub_eq_self {x : Char} {ps rep s : Str} (hx : x ∉ s) :
    replaceSub (x :: ps) rep s = s := by
  have h := @replaceSub_append_left x ps rep s [] hx
  simp only [List.append_nil] at h
  rw [h, replaceSub_nil, List.append_nil]

theorem replaceSub_pat_prefix (x : Char) (ps rep b : Str) :
    replaceSub (x :: ps) rep ((x :: ps) ++ b) = rep ++ replaceSub (x :: ps) rep b := by
  show replaceSub (x :: ps) rep (x :: (ps ++ b)) = _
  rw [replaceSub_cons]
  have hpre : (x :: ps).isPrefixOf (x :: (ps ++ b)) = true := by
    rw [List.isPrefixOf_iff_prefix]
    exact ⟨b, by simp⟩
  rw [if_pos hpre]
  congr 1
  have hdrop : (x :: (ps ++ b)).drop (x :: ps).length = b := by
    simp only [List.length_cons, List.drop_succ_cons]
    rw [List.drop_left' rfl]
  rw [hdrop]

theorem splitOnChar_eq_single {c : Char} {s : Str} (h : c ∉ s) :
    splitOnChar c s = [s] := by
  induction s with
  | nil => rfl
  | cons a t ih =>
    simp only [List.mem_cons, not_or] at h
    rw [splitOnChar, if_neg (fun ha => h.1 ha.symm), ih h.2]

theorem splitOnChar_append_cons {c : Char} {a : Str} (b : Str) (h : c ∉ a) :
    splitOnChar c (a ++ c :: b) = a :: splitOnChar c b := by
  induction a with
  | nil => simp [splitOnChar]
  | cons d ds ih =>
    simp only [List.mem_cons, not_or] at h
    show splitOnChar c (d :: (ds ++ c :: b)) = _
    rw [splitOnChar, if_neg (fun hd => h.1 hd.symm), ih h.2]

theorem hasSub_eq_true_iff {s pat : Str} : hasSub s pat = true ↔ pat <:+: s := by
  induction s with
  | nil =>
    simp only [hasSub, List.isEmpty_iff]
    constructor
    · intro h; subst h; exact List.infix_rfl
    · intro h; exact List.eq_nil_of_infix_nil h
  | cons c t ih =>
    simp only [hasSub, Bool.or_eq_true, List.isPrefixOf_iff_prefix, ih,
      List.infix_cons_iff]

theorem hasSub_eq_false_of_not_mem {s pat : Str} {x : Char} (hmem : x ∈ pat)
    (hx : x ∉ s) : hasSub s pat = false := by
  rw [Bool.eq_false_iff]
  intro h
  rw [hasSub_eq_true_iff] at h
  exact hx (h.subset hmem)

theorem beq_char_comm (a b : Char) : (a == b) = (b == a) := by
  cases h : (a == b)
  · have hne : ¬ a = b := by simpa using h
    have : ¬ b = a := fun hba => hne hba.symm
    simp [this]
  · have heq : a = b := by simpa using h
    subst heq
    simp

theorem isPrefixOf_singleton (y : Char) (b : Str) :
    [y].isPrefixOf b = (b.head? == some y) := by
  cases b with
  | nil => rfl
  | cons d ds =>
    show (y == d && List.isPrefixOf [] ds) = (some d == some y)
    simp only [List.isPrefixOf, Bool.and_true]
    rw [beq_char_comm]
    simp

theorem hasSub_pair_append (a b : Str) (x y : Char) :
    hasSub (a ++ b) [x, y]
      = (hasSub a [x, y] || hasSub b [x, y]
          || (a.getLast? == some x && b.head? == some y)) := by
  induction a with
  | nil => simp [hasSub]
  | cons c cs ih =>
    cases cs with
    | nil =>
      show hasSub (c :: b) [x, y] = _
      rw [hasSub]
      have h1 : [x, y].isPrefixOf (c :: b)
          = ((x == c) && (b.head? == some y)) := by
        show ((x == c) && [y].isPrefixOf b) = _
        rw [isPrefixOf_singleton]
      have h2 : hasSub [c] [x, y] = false := by
        simp [hasSub, List.isPrefixOf]
      rw [h1, h2]
      simp only [List.getLast?_singleton, Bool.false_or]
      rw [show ((some c : Option Char) == some x) = (c == x) by simp,
        beq_char_comm c x]
      cases hxc : (x == c) <;> cases hhb : (b.head? == some y) <;>
        simp [hxc, hhb]
    | cons e es =>
      show hasSub (c :: (e :: es ++ b)) [x, y] = _
      rw [hasSub, ih]
      have h1 : [x, y].isPrefixOf (c :: (e :: es ++ b))
          = ((x == c) && (y == e)) := by
        show ((x == c) && ((y == e) && List.isPrefixOf [] (es ++ b))) = _
        simp [List.isPrefixOf]
      have h2 : hasSub (c :: e :: es) [x, y]
          = (((x == c) && (y == e)) || hasSub (e :: es) [x, y]) := by
        rw [hasSub]
        congr 1
        show ((x == c) && ((y == e) && List.isPrefixOf [] es)) = _
        simp [List.isPrefixOf]
      rw [h1, h2]
      simp only [List.getLast?_cons_cons, List.head?_append]
      have h3 : ((e :: es).head?.or b.head?) = (e :: es).head? := by simp
      cases hxy : ((x == c) && (y == e)) <;> simp [Bool.or_assoc]

/-! ### Separator normalization lemmas -/

theorem sepFree_spec {s : Str} (h : sepFree s = true) :
    ';' ∉ s ∧ '|' ∉ s ∧ '&' ∉ s ∧ '\n' ∉ s ∧ nulChar ∉ s := by
  simp only [sepFree, Bool.not_eq_true', Bool.or_eq_false_iff,
    contains_eq_false_iff] at h
  exact ⟨h.1.1.1.1, h.1.1.1.2, h.1.1.2, h.1.2, h.2⟩

theorem replaceSub_cons_neg {x : Char} {ps rep : Str} {c : Char} {cs : Str}
    (h : ¬ ((x :: ps).isPrefixOf (c :: cs) = true)) :
    replaceSub (x :: ps) rep (c :: cs) = c :: replaceSub (x :: ps) rep cs := by
  rw [replaceSub_cons, if_neg h]

theorem head_replaceSub_ne {x r : Char} {ps b : Str} {v : Char}
    (hr : r ≠ v) (hb : b.head? ≠ some v) :
    (replaceSub (x :: ps) [r] b).head? ≠ some v := by
  cases b with
  | nil =>
    rw [replaceSub_nil]
    simp
  | cons c cs =>
    by_cases hp : (x :: ps).isPrefixOf (c :: cs) = true
    · rw [replaceSub_cons, if_pos hp]
      show (r :: _).head? ≠ some v
      simpa using hr
    · rw [replaceSub_cons_neg hp]
      simpa using hb

theorem not_isPrefixOf_pair_of_head {u w : Char} {t : Str}
    (h : t.head? ≠ some w) : ¬ ([u, w].isPrefixOf (u :: t) = true) := by
  intro hcontra
  rw [List.isPrefixOf_iff_prefix] at hcontra
  rcases hcontra with ⟨rest, hrest⟩
  simp only [List.cons_append, List.cons.injEq] at hrest
  apply h
  rw [← hrest.2]
  simp

theorem replaceChar_cons (o n c : Char) (t : Str) :
    replaceChar o n (c :: t) = (if c = o then n else c) :: replaceChar o n t :=
  rfl

/-- A separator-free string passes through the normalization unchanged. -/
theorem normalizeSeps_eq_self {s : Str} (h : sepFree s = true) :
    normalizeSeps s = s := by
  obtain ⟨hSemi, hPipe, hAmp, hNl, _⟩ := sepFree_spec h
  unfold normalizeSeps
  rw [show str "&&" = '&' :: ['&'] from rfl,
    show str "||" = '|' :: ['|'] from rfl]
  rw [replaceSub_eq_self hAmp, replaceSub_eq_self hPipe,
    replaceChar_eq_self nulChar hNl, replaceChar_eq_self nulChar hSemi,
    replaceChar_eq_self nulChar hPipe]

/-- Normalization of `a ++ sep ++ b` for a separator-free `a` (whose tail `b`
does not begin with a pipe): `a` survives, the separator becomes the
sentinel, and the rest is the normalization of `b`. -/
theorem normalizeSeps_append_sep (sep : Sep) {a : Str} (b : Str)
    (ha : sepFree a = true) (hb : b.head? ≠ some '|') :
    normalizeSeps (a ++ sepStr sep ++ b) = a ++ nulChar :: normalizeSeps b := by
  obtain ⟨hSemi, hPipe, hAmp, hNl, hNul⟩ := sepFree_spec ha
  unfold normalizeSeps
  rw [show str "&&" = '&' :: ['&'] from rfl,
    show str "||" = '|' :: ['|'] from rfl]
  cases sep with
  | andand =>
    rw [show sepStr .andand = '&' :: ['&'] from rfl]
    rw [List.append_assoc,
      replaceSub_append_left (['&', '&'] ++ b) hAmp,
      show ('&' :: ['&'] : Str) ++ b = ('&' :: ['&']) ++ b from rfl,
      replaceSub_pat_prefix]
    rw [show (a ++ ([nulChar] ++ replaceSub ('&' :: ['&']) [nulChar] b))
        = (a ++ [nulChar]) ++ replaceSub ('&' :: ['&']) [nulChar] b by
      simp [List.append_assoc]]
    have hPipeNul : '|' ∉ a ++ [nulChar] := by
      simp only [List.mem_append, List.mem_singleton]
      rintro (h | h)
      · exact hPipe h
      · exact absurd h (by decide)
    rw [replaceSub_append_left _ hPipeNul]
    rw [replaceChar_append, replaceChar_append, replaceChar_append]
    have hNlNul : '\n' ∉ a ++ [nulChar] := by
      simp only [List.mem_append, List.mem_singleton]
      rintro (h | h)
      · exact hNl h
      · exact absurd h (by decide)
    have hSemiNul : ';' ∉ a ++ [nulChar] := by
      simp only [List.mem_append, List.mem_singleton]
      rintro (h | h)
      · exact hSemi h
      · exact absurd h (by decide)
    rw [replaceChar_eq_self nulChar hNlNul, replaceChar_eq_self nulChar hSemiNul,
      replaceChar_eq_self nulChar hPipeNul]
    simp [List.append_assoc]
  | oror =>
    rw [show sepStr .oror = '|' :: ['|'] from rfl]
    have hAmpPP : '&' ∉ a ++ ('|' :: ['|']) := by
      simp only [List.mem_append, List.mem_cons, List.mem_singleton]
      rintro (h | h | h)
      · exact hAmp h
      · exact absurd h (by decide)
      · exact absurd h (by decide)
    rw [replaceSub_append_left b hAmpPP]
    rw [List.append_assoc, replaceSub_append_left
      (('|' :: ['|']) ++ replaceSub ('&' :: ['&']) [nulChar] b) hPipe,
      replaceSub_pat_prefix]
    rw [show (a ++ ([nulChar] ++ replaceSub ('|' :: ['|']) [nulChar]
          (replaceSub ('&' :: ['&']) [nulChar] b)))
        = (a ++ [nulChar]) ++ replaceSub ('|' :: ['|']) [nulChar]
          (replaceSub ('&' :: ['&']) [nulChar] b) by simp [List.append_assoc]]
    rw [replaceChar_append, replaceChar_append, replaceChar_append]
    have hNlNul : '\n' ∉ a ++ [nulChar] := by
      simp only [List.mem_append, List.mem_singleton]
      rintro (h | h)
      · exact hNl h
      · exact absurd h (by decide)
    have hSemiNul : ';' ∉ a ++ [nulChar] := by
      simp only [List.mem_append, List.mem_singleton]
      rintro (h | h)
      · exact hSemi h
      · exact absurd h (by decide)
    have hPipeNul : '|' ∉ a ++ [nulChar] := by
      simp only [List.mem_append, List.mem_singleton]
      rintro (h | h)
      · exact hPipe h
      · exact absurd h (by decide)
    rw [replaceChar_eq_self nulChar hNlNul, replaceChar_eq_self nulChar hSemiNul,
      replaceChar_eq_self nulChar hPipeNul]
    simp [List.append_assoc]
  | pipe =>
    rw [show sepStr .pipe = ['|'] from rfl]
    have hAmpP : '&' ∉ a ++ ['|'] := by
      simp only [List.mem_append, List.mem_singleton]
      rintro (h | h)
      · exact hAmp h
      · exact absurd h (by decide)
    rw [replaceSub_append_left b hAmpP, List.append_assoc,
      List.singleton_append]
    rw [replaceSub_append_left ('|' :: replaceSub ('&' :: ['&']) [nulChar] b)
      hPipe]
    have hHead : (replaceSub ('&' :: ['&']) [nulChar] b).head? ≠ some '|' :=
      head_replaceSub_ne (by decide) hb
    rw [replaceSub_cons_neg (not_isPrefixOf_pair_of_head hHead)]
    rw [replaceChar_append, replaceChar_cons, if_neg (by decide)]
    rw [replaceChar_append, replaceChar_cons, if_neg (by decide)]
    rw [replaceChar_append, replaceChar_cons, if_pos rfl]
    rw [replaceChar_eq_self nulChar hNl, replaceChar_eq_self nulChar hSemi,
      replaceChar_eq_self nulChar hPipe]
  | semi =>
    rw [show sepStr .semi = [';'] from rfl]
    have hAmpS : '&' ∉ a ++ [';'] := by
      simp only [List.mem_append, List.mem_singleton]
      rintro (h | h)
      · exact hAmp h
      · exact absurd h (by decide)
    have hPipeS : '|' ∉ a ++ [';'] := by
      simp only [List.mem_append, List.mem_singleton]
      rintro (h | h)
      · exact hPipe h
      · exact absurd h (by decide)
    rw [replaceSub_append_left b hAmpS,
      replaceSub_append_left (replaceSub ('&' :: ['&']) [nulChar] b) hPipeS]
    rw [List.append_assoc, List.singleton_append, replaceChar_append,
      replaceChar_cons, if_neg (by decide)]
    rw [replaceChar_append, replaceChar_cons, if_pos rfl]
    rw [replaceChar_append, replaceChar_cons, if_neg (by decide)]
    rw [replaceChar_eq_self nulChar hNl, replaceChar_eq_self nulChar hSemi,
      replaceChar_eq_self nulChar hPipe]
  | newline =>
    rw [show sepStr .newline = ['\n'] from rfl]
    have hAmpN : '&' ∉ a ++ ['\n'] := by
      simp only [List.mem_append, List.mem_singleton]
      rintro (h | h)
      · exact hAmp h
      · exact absurd h (by decide)
    have hPipeN : '|' ∉ a ++ ['\n'] := by
      simp only [List.mem_append, List.mem_singleton]
      rintro (h | h)
      · exact hPipe h
      · exact absurd h (by decide)
    rw [replaceSub_append_left b hAmpN,
      replaceSub_append_left (replaceSub ('&' :: ['&']) [nulChar] b) hPipeN]
    rw [List.append_assoc, List.singleton_append, replaceChar_append,
      replaceChar_cons, if_pos rfl]
    rw [replaceChar_append, replaceChar_cons, if_neg (by decide)]
    rw [replaceChar_append, replaceChar_cons, if_neg (by decide)]
    rw [replaceChar_eq_self nulChar hNl, replaceChar_eq_self nulChar hSemi,
      replaceChar_eq_self nulChar hPipe]

/-! ### Segment decomposition of joined commands -/

theorem head?_append_of_ne_nil {s : Str} (t : Str) (h : s ≠ []) :
    (s ++ t).head? = s.head? := by
  cases s with
  | nil => exact absurd rfl h
  | cons c cs => rfl

theorem sepStr_ne_nil (sep : Sep) : sepStr sep ≠ [] := by
  cases sep <;> decide

theorem head?_joinCmd {s : Str} (rest : List (Sep × Str)) (h : s ≠ []) :
    (joinCmd s rest).head? = s.head? := by
  cases rest with
  | nil => rfl
  | cons q r =>
    obtain ⟨sep, t⟩ := q
    show ((s ++ sepStr sep) ++ joinCmd t r).head? = s.head?
    rw [head?_append_of_ne_nil _ (by
      intro hcontra
      exact h (List.append_eq_nil.mp hcontra).1)]
    exact head?_append_of_ne_nil _ h

theorem segmentsOf_join : ∀ (rest : List (Sep × Str)) (first : Str),
    sepFree first = true →
    (∀ q ∈ rest, sepFree q.2 = true ∧ q.2 ≠ []) →
    segmentsOf (joinCmd first rest) = first :: rest.map Prod.snd := by
  intro rest
  induction rest with
  | nil =>
    intro first h1 _
    unfold segmentsOf
    show splitOnChar nulChar (normalizeSeps first) = [first]
    rw [normalizeSeps_eq_self h1]
    exact splitOnChar_eq_single (sepFree_spec h1).2.2.2.2
  | cons q r ih =>
    intro first h1 h2
    obtain ⟨sep, s⟩ := q
    have hs := h2 (sep, s) (List.mem_cons_self _ _)
    have hhead : (joinCmd s r).head? ≠ some '|' := by
      rw [head?_joinCmd r hs.2]
      intro hcontra
      have hmem : '|' ∈ s := by
        cases s with
        | nil => simp at hcontra
        | cons c cs =>
          simp only [List.head?_cons, Option.some.injEq] at hcontra
          rw [hcontra]
          exact List.mem_cons_self _ _
      exact (sepFree_spec hs.1).2.1 hmem
    show segmentsOf (first ++ sepStr sep ++ joinCmd s r) = _
    unfold segmentsOf
    rw [normalizeSeps_append_sep sep (joinCmd s r) h1 hhead]
    rw [splitOnChar_append_cons _ (sepFree_spec h1).2.2.2.2]
    have ihr := ih s hs.1 (fun q hq => h2 q (List.mem_cons_of_mem _ hq))
    unfold segmentsOf at ihr
    rw [ihr]
    rfl

/-! ### Per-segment lemmas for the allowlist check -/

theorem skip_env_assignments_nil : skip_env_assignments [] = [] := by
  unfold skip_env_assignments
  rfl

theorem trim_nil : trim ([] : Str) = [] := rfl

theorem rsplitSlashLast_nil : rsplitSlashLast [] = [] := rfl

theorem baseOf_facts {s : Str} (h : baseOf s ≠ []) :
    ∃ w, firstWord (skip_env_assignments (trim s)) = some w ∧ w ≠ [] ∧
      rsplitSlashLast w = baseOf s ∧ trim s ≠ [] := by
  unfold baseOf at h ⊢
  cases hfw : firstWord (skip_env_assignments (trim s)) with
  | none =>
    rw [hfw] at h
    exact absurd rfl h
  | some w =>
    rw [hfw] at h
    refine ⟨w, rfl, ?_, rfl, ?_⟩
    · intro hw
      subst hw
      exact h rfl
    · intro hts
      rw [hts, skip_env_assignments_nil] at hfw
      simp [firstWord] at hfw

theorem seg_allowed_check_of_contains {p : SecurityPolicy} {s : Str}
    (h : p.allowed_commands.contains (baseOf s) = true) :
    seg_allowed_check p s = true := by
  simp only [seg_allowed_check]
  by_cases h1 : (trim s).isEmpty = true
  · rw [if_pos h1]
  · rw [if_neg h1]
    by_cases h2 :
        (rsplitSlashLast
          ((firstWord (skip_env_assignments (trim s))).getD [])).isEmpty = true
    · rw [if_pos h2]
    · rw [if_neg h2]
      exact h

theorem seg_allowed_check_eq_false {p : SecurityPolicy} {s : Str}
    (hbase : baseOf s ≠ [])
    (h : p.allowed_commands.contains (baseOf s) = false) :
    seg_allowed_check p s = false := by
  obtain ⟨w, hw, hwne, hrs, hts⟩ := baseOf_facts hbase
  have h1 : ¬ ((trim s).isEmpty = true) := by
    intro hc
    exact hts (List.isEmpty_iff.mp hc)
  have h2 : ¬ ((rsplitSlashLast
      ((firstWord (skip_env_assignments (trim s))).getD [])).isEmpty = true) := by
    intro hc
    exact hbase (List.isEmpty_iff.mp hc)
  simp only [seg_allowed_check]
  rw [if_neg h1, if_neg h2]
  exact h

theorem seg_has_cmd_of_base {s : Str} (hbase : baseOf s ≠ []) :
    seg_has_cmd s = true := by
  obtain ⟨w, hw, hwne, _, _⟩ := baseOf_facts hbase
  unfold seg_has_cmd
  rw [hw]
  cases hwc : w with
  | nil => exact absurd hwc hwne
  | cons c cs => rfl

/-! ### Risk-classification lemmas -/

theorem riskLoop_high_of_mem {segs : List Str} {s : Str} (hmem : s ∈ segs)
    (hhigh : segRiskStep s = .high) :
    ∀ m, riskLoop segs m = .high := by
  induction segs with
  | nil => exact absurd hmem (List.not_mem_nil s)
  | cons t rest ih =>
    intro m
    rcases List.mem_cons.mp hmem with heq | hmem'
    · subst heq
      rw [riskLoop, hhigh]
    · rw [riskLoop]
      cases segRiskStep t with
      | high => rfl
      | medium => exact ih hmem' true
      | low => exact ih hmem' m

theorem segmentsOf_single {s : Str} (hs : sepFree s = true) :
    segmentsOf s = [s] := by
  unfold segmentsOf
  rw [normalizeSeps_eq_self hs]
  exact splitOnChar_eq_single (sepFree_spec hs).2.2.2.2

theorem segRiskStep_high_of_single {s : Str} (hs : sepFree s = true)
    (h : command_risk_level s = .high) : segRiskStep s = .high := by
  unfold command_risk_level at h
  rw [segmentsOf_single hs] at h
  rw [riskLoop] at h
  cases hstep : segRiskStep s with
  | high => rfl
  | medium =>
    rw [hstep] at h
    simp [riskLoop] at h
  | low =>
    rw [hstep] at h
    simp [riskLoop] at h

/-! ### Injection-marker guards over joined commands -/

theorem not_mem_joinCmd {c : Char} (hsep : ∀ sep : Sep, c ∉ sepStr sep) :
    ∀ (rest : List (Sep × Str)) (first : Str),
      (∀ s ∈ first :: rest.map Prod.snd, c ∉ s) →
      c ∉ joinCmd first rest := by
  intro rest
  induction rest with
  | nil =>
    intro first h
    exact h first (List.mem_cons_self _ _)
  | cons q r ih =>
    intro first h
    obtain ⟨sep, s⟩ := q
    show c ∉ first ++ sepStr sep ++ joinCmd s r
    simp only [List.mem_append, not_or]
    refine ⟨⟨h first (List.mem_cons_self _ _), hsep sep⟩, ?_⟩
    apply ih s
    intro t ht
    apply h
    rcases List.mem_cons.mp ht with heq | hmem
    · subst heq
      exact List.mem_cons_of_mem _ (by simp)
    · refine List.mem_cons_of_mem _ ?_
      simp only [List.map_cons, List.mem_cons]
      right
      exact hmem

theorem hasSub_joinCmd_false {x y : Char}
    (h1 : ∀ sep : Sep, hasSub (sepStr sep) [x, y] = false)
    (h2 : ∀ sep : Sep, ((sepStr sep).getLast? == some x) = false)
    (h3 : ∀ sep : Sep, ((sepStr sep).head? == some y) = false) :
    ∀ (rest : List (Sep × Str)) (first : Str),
      (∀ s ∈ first :: rest.map Prod.snd, hasSub s [x, y] = false) →
      hasSub (joinCmd first rest) [x, y] = false := by
  intro rest
  induction rest with
  | nil =>
    intro first h
    exact h first (List.mem_cons_self _ _)
  | cons q r ih =>
    intro first h
    obtain ⟨sep, s⟩ := q
    show hasSub (first ++ sepStr sep ++ joinCmd s r) [x, y] = false
    rw [List.append_assoc, hasSub_pair_append, hasSub_pair_append]
    have hfirst : hasSub first [x, y] = false := h first (List.mem_cons_self _ _)
    have hjoin : hasSub (joinCmd s r) [x, y] = false := by
      apply ih s
      intro t ht
      apply h
      rcases List.mem_cons.mp ht with heq | hmem
      · subst heq
        exact List.mem_cons_of_mem _ (by simp)
      · refine List.mem_cons_of_mem _ ?_
        simp only [List.map_cons, List.mem_cons]
        right
        exact hmem
    have hh : ((sepStr sep ++ joinCmd s r).head? == some y) = false := by
      rw [head?_append_of_ne_nil _ (sepStr_ne_nil sep)]
      exact h3 sep
    rw [hfirst, hjoin, h1 sep, h2 sep, hh]
    simp

/-! ### Claim theorems -/

/-- C1: for every command `c` with `is_catastrophic c = true`, every policy
configuration (hence every autonomy level) and every value of the `approved`
flag, `validate_command_execution` returns an error, never `Ok`. -/
theorem c1_catastrophic_never_ok (p : SecurityPolicy) (c : Str)
    (approved : Bool) (h : is_catastrophic c = true) :
    isErr (validate_command_execution p c approved) = true := by
  unfold validate_command_execution
  by_cases ha : is_command_allowed p c = true
  · rw [if_neg (by rw [ha]; simp), if_pos h]
    rfl
  · have ha' : is_command_allowed p c = false := Bool.eq_false_iff.mpr ha
    rw [if_pos (by rw [ha']; rfl)]
    rfl

/-- Witness for C1 at the concrete catastrophic command `"reboot"` under the
default policy with `approved = true`. -/
theorem c1_catastrophic_never_ok_witness :
    is_catastrophic (str "reboot") = true ∧
      isErr (validate_command_execution defaultPolicy (str "reboot") true) = true :=
  ⟨by decide, c1_catastrophic_never_ok defaultPolicy (str "reboot") true (by decide)⟩

/-- C2: a command containing a backtick, `"$("`, `"${"`, or `'>'` is never
allowed, for every policy configuration (in particular regardless of
`allowed_commands`). -/
theorem c2_injection_marker_never_allowed (p : SecurityPolicy) (c : Str)
    (h : c.contains backtick = true ∨ hasSub c (str "$(") = true ∨
      hasSub c (str "$\x7b") = true ∨ c.contains '>' = true) :
    is_command_allowed p c = false := by
  unfold is_command_allowed
  by_cases hro : p.autonomy = .readOnly
  · rw [if_pos hro]
  · rw [if_neg hro]
    rcases h with h | h | h | h
    · rw [if_pos (by rw [h]; rfl)]
    · rw [if_pos (by rw [h]; simp)]
    · rw [if_pos (by rw [h]; simp)]
    · by_cases hg : (c.contains backtick || hasSub c (str "$(")
          || hasSub c (str "$\x7b")) = true
      · rw [if_pos hg]
      · rw [if_neg hg, if_pos h]

/-- Witness for C2 at the concrete command `"echo secret > /etc/crontab"`
(output redirection) under the default policy. -/
theorem c2_injection_marker_never_allowed_witness :
    is_command_allowed defaultPolicy (str "echo secret > /etc/crontab") = false :=
  c2_injection_marker_never_allowed defaultPolicy
    (str "echo secret > /etc/crontab")
    (Or.inr (Or.inr (Or.inr (by decide))))

/-- The Supervised policy of C10 with only `rm` on the allowlist. -/
def c10PolicySupervised : SecurityPolicy :=
  { defaultPolicy with allowed_commands := [str "rm"] }

/-- The Full-autonomy policy of C10 with only `rm` on the allowlist. -/
def c10PolicyFull : SecurityPolicy :=
  { c10PolicySupervised with autonomy := .full }

/-- C10: `is_catastrophic` does not skip leading env assignments, so
`"X=1 rm -rf /"` is not catastrophic while `command_risk_level` (which does
skip them) rates it High; with `rm` allowlisted and autonomy Supervised or
Full, `validate_command_execution` with `approved = true` returns
`Ok(High)`. -/
theorem c10_env_assignment_bypasses_catastrophic :
    is_catastrophic (str "X=1 rm -rf /") = false
    ∧ command_risk_level (str "X=1 rm -rf /") = .high
    ∧ validate_command_execution c10PolicySupervised (str "X=1 rm -rf /") true
        = .ok .high
    ∧ validate_command_execution c10PolicyFull (str "X=1 rm -rf /") true
        = .ok .high := by
  refine ⟨by decide, by decide, by decide, by decide⟩

/-- C6: a path containing `".."` as a whole component is rejected by
`is_path_allowed` under every policy configuration and environment; the
concrete paths `"../x"` and `"a/b/../c"` are rejected under both
`workspace_only` settings, while `"a..b"` (where `".."` is only a substring
of a component) is allowed under the default configuration. -/
theorem c6_parent_component_always_blocked :
    (∀ (p : SecurityPolicy) (home : Option Str) (path : Str),
        PathComponent.parentDir ∈ pathComponents path →
        is_path_allowed p home path = false)
    ∧ (∀ (b : Bool) (home : Option Str),
        is_path_allowed { defaultPolicy with workspace_only := b } home
            (str "../x") = false
        ∧ is_path_allowed { defaultPolicy with workspace_only := b } home
            (str "a/b/../c") = false)
    ∧ is_path_allowed defaultPolicy none (str "a..b") = true := by
  have hgen : ∀ (p : SecurityPolicy) (home : Option Str) (path : Str),
      PathComponent.parentDir ∈ pathComponents path →
      is_path_allowed p home path = false := by
    intro p home path hmem
    unfold is_path_allowed
    by_cases h0 : path.contains '\x00' = true
    · rw [if_pos h0]
    · rw [if_neg h0]
      rw [if_pos (List.any_eq_true.mpr ⟨_, hmem, rfl⟩)]
  refine ⟨hgen, ?_, by decide⟩
  intro b home
  exact ⟨hgen _ home (str "../x") (by decide),
    hgen _ home (str "a/b/../c") (by decide)⟩

/-- Witness for C6's universally quantified part at the default policy, no
`HOME`, and the concrete traversal path `"../x"`. -/
theorem c6_parent_component_always_blocked_witness :
    is_path_allowed defaultPolicy none (str "../x") = false :=
  c6_parent_component_always_blocked.1 defaultPolicy none (str "../x")
    (by decide)

/-- C9: `record` calls within one rolling hour return `1, 2, …, N`
(nothing is pruned while all timestamps sit inside one window);
with `max_actions_per_hour = 3`, four `record_action` calls within the hour
return `true, true, true, false`; `record_action` returns
`new count ≤ max_actions_per_hour` and `is_rate_limited` returns
`count ≥ max_actions_per_hour` without recording. -/
theorem c9_rate_limiter_counts :
    (∀ (lo : Nat) (times : List Nat), 3600 ≤ lo →
        (∀ t ∈ times, lo ≤ t ∧ t < lo + 3600) →
        tracker_record_seq times [] = List.range' 1 times.length)
    ∧ record_action_seq { defaultPolicy with max_actions_per_hour := 3 }
        [3600, 3600, 3600, 3600] [] = [true, true, true, false]
    ∧ (∀ (p : SecurityPolicy) (now : Nat) (ts : List Nat),
        (record_action p now ts).1
          = decide ((tracker_record now ts).1 ≤ p.max_actions_per_hour))
    ∧ (∀ (p : SecurityPolicy) (now : Nat) (ts : List Nat),
        (is_rate_limited p now ts).1
          = decide (p.max_actions_per_hour ≤ (tracker_count now ts).1)) := by
  have haux : ∀ (lo : Nat), 3600 ≤ lo → ∀ (times st : List Nat),
      (∀ t ∈ times, lo ≤ t ∧ t < lo + 3600) →
      (∀ s ∈ st, lo ≤ s) →
      tracker_record_seq times st = List.range' (st.length + 1) times.length := by
    intro lo hlo times
    induction times with
    | nil => intro st _ _; rfl
    | cons t rest ih =>
      intro st htimes hst
      have ht := htimes t (List.mem_cons_self _ _)
      have hprune : pruneWindow t st = st := by
        apply List.filter_eq_self.mpr
        intro s hs
        apply decide_eq_true
        have hls := hst s hs
        unfold windowCutoff
        rw [if_pos (le_trans hlo ht.1)]
        omega
      show (tracker_record t st).1 :: tracker_record_seq rest (tracker_record t st).2
          = _
      have hrec : tracker_record t st = (st.length + 1, st ++ [t]) := by
        unfold tracker_record
        rw [hprune]
        show ((st ++ [t]).length, st ++ [t]) = _
        rw [List.length_append]
        rfl
      rw [hrec]
      have hih := ih (st ++ [t])
        (fun u hu => htimes u (List.mem_cons_of_mem _ hu))
        (by
          intro s hs
          rcases List.mem_append.mp hs with hs | hs
          · exact hst s hs
          · rw [List.mem_singleton.mp hs]
            exact ht.1)
      rw [hih, List.length_append]
      rfl
  refine ⟨?_, by decide, fun p now ts => rfl, fun p now ts => rfl⟩
  intro lo times hlo htimes
  have h := haux lo hlo times [] htimes (by intro s hs; exact absurd hs (List.not_mem_nil s))
  simpa using h

/-- Witness for C9's universally quantified part with two records at
`3600` and `3601`, both inside one window. -/
theorem c9_rate_limiter_counts_witness :
    tracker_record_seq [3600, 3601] [] = List.range' 1 2 :=
  c9_rate_limiter_counts.1 3600 [3600, 3601] (by decide) (by decide)

/-- Counterexample to C8 as stated: for the command `"/"`, every segment's
candidate base command (the basename of the first token) is empty, yet
`is_command_allowed` returns `true` under the default policy, because the
`has_cmd` check tests the raw first token (here `"/"`), not its basename. -/
theorem c8_empty_candidate_counterexample :
    segmentsOf (str "/") = [str "/"]
    ∧ baseOf (str "/") = []
    ∧ is_command_allowed defaultPolicy (str "/") = true := by
  refine ⟨by decide, by decide, by decide⟩

/-- C8 (amended): `is_command_allowed` returns `true` only if some segment
has a non-empty first whitespace token after trimming and skipping env
assignments — the check applies to the token before basename-stripping.  In
particular every command that is empty, whitespace-only, consists only of
env assignments, or whose every segment has no token, is rejected. -/
theorem c8_token_required_for_allowance :
    (∀ (p : SecurityPolicy) (c : Str),
        (∀ seg ∈ segmentsOf c,
          firstWord (skip_env_assignments (trim seg)) = none) →
        is_command_allowed p c = false)
    ∧ is_command_allowed defaultPolicy (str "") = false
    ∧ is_command_allowed defaultPolicy (str "   ") = false
    ∧ is_command_allowed defaultPolicy (str "FOO=1 BAR=2") = false := by
  refine ⟨?_, by decide, by decide, by decide⟩
  intro p c hseg
  unfold is_command_allowed
  by_cases hro : p.autonomy = .readOnly
  · rw [if_pos hro]
  · rw [if_neg hro]
    by_cases hg1 : (c.contains backtick || hasSub c (str "$(")
        || hasSub c (str "$\x7b")) = true
    · rw [if_pos hg1]
    · rw [if_neg hg1]
      by_cases hg2 : c.contains '>' = true
      · rw [if_pos hg2]
      · rw [if_neg hg2]
        have hany : (segmentsOf c).any seg_has_cmd = false := by
          rw [List.any_eq_false]
          intro seg hmem
          unfold seg_has_cmd
          rw [hseg seg hmem]
          simp
        rw [hany, Bool.and_false]

/-- Witness for C8's universally quantified part at the command `";;"`,
all of whose segments are empty. -/
theorem c8_token_required_for_allowance_witness :
    is_command_allowed defaultPolicy (str ";;") = false :=
  c8_token_required_for_allowance.1 defaultPolicy (str ";;") (by decide)

/-- The policy of the C5 counterexample: a workspace-confined policy with an
absolute workspace directory. -/
def c5Policy : SecurityPolicy :=
  { defaultPolicy with
      workspace_only := true
      workspace_dir := str "/home/u/project" }

/-- Counterexample to C5 as stated: with `workspace_only = true` and
`workspace_dir = "/home/u/project"`, the resolved path
`"/home/u/project/x"` is accepted by `is_resolved_path_allowed` (it is
inside the workspace) but rejected by `is_path_allowed` (absolute paths are
rejected when `workspace_only` is set), so the resolved check accepts a path
the lexical check rejects.  (`canon` returning `none` models a workspace
directory that cannot be canonicalized, triggering the code's fallback.) -/
theorem c5_resolved_not_stronger_counterexample :
    is_resolved_path_allowed c5Policy (fun _ => none) (str "/home/u/project/x")
        = true
    ∧ is_path_allowed c5Policy none (str "/home/u/project/x") = false := by
  refine ⟨by decide, by decide⟩

/-- C5 (amended): `is_resolved_path_allowed` and `is_path_allowed` are
independent checks, neither stronger than the other: the resolved check
accepts `"/home/u/project/x"` which the lexical check rejects (absolute
path under `workspace_only`), and the lexical check accepts the relative
path `"a/b"` which the resolved check rejects (not under the workspace
root); `is_resolved_path_allowed` decides exactly component-wise
containment under the canonicalized-or-literal workspace root. -/
theorem c5_resolved_and_lexical_independent :
    (is_resolved_path_allowed c5Policy (fun _ => none) (str "/home/u/project/x")
        = true
      ∧ is_path_allowed c5Policy none (str "/home/u/project/x") = false)
    ∧ (is_path_allowed c5Policy none (str "a/b") = true
      ∧ is_resolved_path_allowed c5Policy (fun _ => none) (str "a/b") = false)
    ∧ (∀ (p : SecurityPolicy) (canon : Str → Option Str) (resolved : Str),
        is_resolved_path_allowed p canon resolved
          = pathStartsWith resolved
              ((canon p.workspace_dir).getD p.workspace_dir)) := by
  exact ⟨⟨by decide, by decide⟩, ⟨by decide, by decide⟩,
    fun p canon resolved => rfl⟩

/-- C4: for a single-segment command (no separator-forming characters) whose
first token's basename is `rm`, and which does not trip the fork-bomb or
`dd`-to-device whole-string checks, `is_catastrophic` holds exactly when the
token list has both a recursive+force flag and a `/` or `/*` target; in
particular `"rm -rf /"` is catastrophic while `"rm -rf /tmp/x"` and
`"rm -rf ./build"` are not (both of which `command_risk_level` rates
High). -/
theorem c4_rm_catastrophic_iff_rf_and_root :
    (∀ c : Str,
        sepFree (toAsciiLower c) = true →
        ¬(hasSub (toAsciiLower c) (str "dd ") = true ∧
          hasSub (toAsciiLower c) (str "of=/dev/") = true) →
        rsplitSlashLast (((splitWhitespace (toAsciiLower c)).head?).getD [])
          = str "rm" →
        (is_catastrophic c = true ↔
          (hasRfFlag (splitWhitespace (toAsciiLower c)) = true ∧
            targetsRoot (splitWhitespace (toAsciiLower c)) = true)))
    ∧ is_catastrophic (str "rm -rf /") = true
    ∧ is_catastrophic (str "rm -rf /tmp/x") = false
    ∧ is_catastrophic (str "rm -rf ./build") = false
    ∧ command_risk_level (str "rm -rf /tmp/x") = .high
    ∧ command_risk_level (str "rm -rf ./build") = .high := by
  refine ⟨?_, by decide, by decide, by decide, by decide, by decide⟩
  intro c hsf hdd hrm
  have hfb : hasSub (toAsciiLower c) forkBomb = false := by
    apply hasSub_eq_false_of_not_mem (x := '|')
    · decide
    · exact (sepFree_spec hsf).2.1
  have hdd' : (hasSub (toAsciiLower c) (str "dd ")
      && hasSub (toAsciiLower c) (str "of=/dev/")) = false := by
    cases h1 : hasSub (toAsciiLower c) (str "dd ") with
    | false => rfl
    | true =>
      cases h2 : hasSub (toAsciiLower c) (str "of=/dev/") with
      | false => rfl
      | true => exact absurd ⟨h1, h2⟩ hdd
  simp only [is_catastrophic]
  rw [if_neg (by rw [hfb]; simp), if_neg (by rw [hdd']; simp)]
  rw [normalizeSeps_eq_self hsf,
    splitOnChar_eq_single (sepFree_spec hsf).2.2.2.2]
  simp only [List.any_cons, List.any_nil, Bool.or_false]
  have hex : ∃ f r, splitWhitespace (toAsciiLower c) = f :: r := by
    cases hsw : splitWhitespace (toAsciiLower c) with
    | nil =>
      rw [hsw] at hrm
      exact absurd hrm (by decide)
    | cons f r => exact ⟨f, r, rfl⟩
  obtain ⟨first, restw, hsw⟩ := hex
  have hbase : rsplitSlashLast first = str "rm" := by
    rw [hsw] at hrm
    exact hrm
  simp only [catastrophicSeg, hsw, hbase]
  rw [if_pos trivial, if_neg (by decide), if_neg (by decide),
    Bool.and_eq_true]

/-- Witness for C4's universally quantified part at the non-catastrophic
single-segment command `"rm -rf x"` (recursive flag but no root target). -/
theorem c4_rm_catastrophic_iff_rf_and_root_witness :
    is_catastrophic (str "rm -rf x") = true ↔
      (hasRfFlag (splitWhitespace (toAsciiLower (str "rm -rf x"))) = true ∧
        targetsRoot (splitWhitespace (toAsciiLower (str "rm -rf x"))) = true) :=
  c4_rm_catastrophic_iff_rf_and_root.1 (str "rm -rf x") (by decide)
    (by decide) (by decide)

theorem cleanSeg_spec {s : Str} (h : cleanSeg s = true) :
    s ≠ [] ∧ sepFree s = true ∧ backtick ∉ s ∧ '>' ∉ s ∧
      hasSub s (str "$(") = false ∧ hasSub s (str "$\x7b") = false := by
  simp only [cleanSeg, Bool.and_eq_true, Bool.not_eq_true'] at h
  obtain ⟨⟨⟨⟨⟨h1, h2⟩, h3⟩, h4⟩, h5⟩, h6⟩ := h
  refine ⟨?_, h2, contains_eq_false_iff.mp h3, contains_eq_false_iff.mp h4,
    h5, h6⟩
  intro hs
  rw [hs] at h1
  simp at h1

/-- Counterexample to C3 as stated: the segments `"ls &"` and `"ls"` are
both free of injection markers and both have the allowlisted base command
`"ls"`, yet joining them with `"&&"` yields `"ls &&&ls"`, whose `"&&"`
replacement consumes the segment's trailing ampersand and produces the
segments `"ls "` and `"&ls"` — and `"&ls"` is not allowlisted, so the
joined command is rejected. -/
theorem c3_ampersand_boundary_counterexample :
    baseOf (str "ls &") = str "ls"
    ∧ baseOf (str "ls") = str "ls"
    ∧ (str "ls &").contains backtick = false
    ∧ hasSub (str "ls &") (str "$(") = false
    ∧ hasSub (str "ls &") (str "$\x7b") = false
    ∧ (str "ls &").contains '>' = false
    ∧ joinCmd (str "ls &") [(Sep.andand, str "ls")] = str "ls &&&ls"
    ∧ ({ defaultPolicy with allowed_commands := [str "ls"] }
        : SecurityPolicy).allowed_commands.contains (baseOf (str "ls &")) = true
    ∧ is_command_allowed { defaultPolicy with allowed_commands := [str "ls"] }
        (str "ls &&&ls") = false := by
  refine ⟨by decide, by decide, by decide, by decide, by decide, by decide,
    by decide, by decide, by decide⟩

/-- C3 (amended): for a non-ReadOnly policy, a command formed by joining
segments with `;`, `&&`, `||`, `|` or newline is allowed when every segment
is clean — free of injection markers (backtick, `"$("`, `"${"`, `'>'`) and
of separator-forming characters (`';'`, `'|'`, `'&'`, newline, NUL), so
that segmentation reproduces the segments — and every segment's base
command is non-empty and on the allowlist; and (under the same cleanliness)
a command one of whose segments has a non-empty base command that is *not*
on the allowlist is rejected. -/
theorem c3_clean_segment_allowlist_composition :
    (∀ (p : SecurityPolicy) (first : Str) (rest : List (Sep × Str)),
        p.autonomy ≠ .readOnly →
        (∀ s ∈ first :: rest.map Prod.snd,
          cleanSeg s = true ∧ baseOf s ≠ [] ∧
            p.allowed_commands.contains (baseOf s) = true) →
        is_command_allowed p (joinCmd first rest) = true)
    ∧ (∀ (p : SecurityPolicy) (first : Str) (rest : List (Sep × Str)),
        (∀ s ∈ first :: rest.map Prod.snd, cleanSeg s = true) →
        (∃ s ∈ first :: rest.map Prod.snd,
          baseOf s ≠ [] ∧ p.allowed_commands.contains (baseOf s) = false) →
        is_command_allowed p (joinCmd first rest) = false) := by
  constructor
  · intro p first rest hro hsegs
    have hclean : ∀ s ∈ first :: rest.map Prod.snd, cleanSeg s = true :=
      fun s hs => (hsegs s hs).1
    have hfirstclean := cleanSeg_spec (hclean first (List.mem_cons_self _ _))
    have hjoin : segmentsOf (joinCmd first rest) = first :: rest.map Prod.snd := by
      apply segmentsOf_join rest first hfirstclean.2.1
      intro q hq
      have hcq := cleanSeg_spec (hclean q.2
        (List.mem_cons_of_mem _ (List.mem_map_of_mem _ hq)))
      exact ⟨hcq.2.1, hcq.1⟩
    have hbq : (joinCmd first rest).contains backtick = false := by
      rw [contains_eq_false_iff]
      apply not_mem_joinCmd (fun sep => by cases sep <;> decide) rest first
      intro s hs
      exact (cleanSeg_spec (hclean s hs)).2.2.1
    have hgt : (joinCmd first rest).contains '>' = false := by
      rw [contains_eq_false_iff]
      apply not_mem_joinCmd (fun sep => by cases sep <;> decide) rest first
      intro s hs
      exact (cleanSeg_spec (hclean s hs)).2.2.2.1
    have hdp : hasSub (joinCmd first rest) (str "$(") = false := by
      apply hasSub_joinCmd_false (x := '$') (y := '(')
        (fun sep => by cases sep <;> decide)
        (fun sep => by cases sep <;> decide)
        (fun sep => by cases sep <;> decide)
      intro s hs
      exact (cleanSeg_spec (hclean s hs)).2.2.2.2.1
    have hdb : hasSub (joinCmd first rest) (str "$\x7b") = false := by
      apply hasSub_joinCmd_false (x := '$') (y := '{')
        (fun sep => by cases sep <;> decide)
        (fun sep => by cases sep <;> decide)
        (fun sep => by cases sep <;> decide)
      intro s hs
      exact (cleanSeg_spec (hclean s hs)).2.2.2.2.2
    unfold is_command_allowed
    rw [if_neg hro, if_neg (by rw [hbq, hdp, hdb]; simp),
      if_neg (by rw [hgt]; simp), hjoin]
    have hall : (first :: rest.map Prod.snd).all (seg_allowed_check p) = true :=
      List.all_eq_true.mpr
        (fun s hs => seg_allowed_check_of_contains (hsegs s hs).2.2)
    have hany : (first :: rest.map Prod.snd).any seg_has_cmd = true :=
      List.any_eq_true.mpr ⟨first, List.mem_cons_self _ _,
        seg_has_cmd_of_base (hsegs first (List.mem_cons_self _ _)).2.1⟩
    rw [hall, hany]
    rfl
  · intro p first rest hclean hex
    obtain ⟨s, hs, hbase, hnc⟩ := hex
    unfold is_command_allowed
    by_cases hro : p.autonomy = .readOnly
    · rw [if_pos hro]
    · rw [if_neg hro]
      by_cases hg1 : ((joinCmd first rest).contains backtick
          || hasSub (joinCmd first rest) (str "$(")
          || hasSub (joinCmd first rest) (str "$\x7b")) = true
      · rw [if_pos hg1]
      · rw [if_neg hg1]
        by_cases hg2 : (joinCmd first rest).contains '>' = true
        · rw [if_pos hg2]
        · rw [if_neg hg2]
          have hjoin : segmentsOf (joinCmd first rest)
              = first :: rest.map Prod.snd := by
            apply segmentsOf_join rest first
              (cleanSeg_spec (hclean first (List.mem_cons_self _ _))).2.1
            intro q hq
            have hcq := cleanSeg_spec (hclean q.2
              (List.mem_cons_of_mem _ (List.mem_map_of_mem _ hq)))
            exact ⟨hcq.2.1, hcq.1⟩
          rw [hjoin]
          have hall : (first :: rest.map Prod.snd).all (seg_allowed_check p)
              = false :=
            List.all_eq_false.mpr ⟨s, hs, by
              rw [seg_allowed_check_eq_false hbase hnc]
              simp⟩
          rw [hall, Bool.false_and]

/-- Witness for C3 (amended): the two clean allowlisted segments
`"ls -la"` and `"grep foo"` joined with a pipe are allowed. -/
theorem c3_clean_segment_allowlist_composition_witness :
    is_command_allowed
        { defaultPolicy with allowed_commands := [str "ls", str "grep"] }
        (joinCmd (str "ls -la") [(Sep.pipe, str "grep foo")]) = true :=
  c3_clean_segment_allowlist_composition.1
    { defaultPolicy with allowed_commands := [str "ls", str "grep"] }
    (str "ls -la") [(Sep.pipe, str "grep foo")] (by decide) (by decide)

/-- Counterexample to C7 as stated: `"ssh x"` is a High-risk segment, but
joining the segment `"a&"` with it via `"&&"` gives `"a&&&ssh x"`, whose
`"&&"` replacement consumes the trailing ampersand of `"a&"` and turns the
second segment into `"&ssh x"`, with base `"&ssh"` — not in the high-risk
set — so the joined command classifies as Low, not High. -/
theorem c7_ampersand_boundary_counterexample :
    command_risk_level (str "ssh x") = CommandRiskLevel.high
    ∧ joinCmd (str "a&") [(Sep.andand, str "ssh x")] = str "a&&&ssh x"
    ∧ command_risk_level (str "a&&&ssh x") = CommandRiskLevel.low := by
  refine ⟨by decide, by decide, by decide⟩

/-- C7 (amended): command risk is monotonic under concatenation for
separator-free segments: if a segment `s` classifies High on its own and
every joined segment is non-empty and free of separator-forming characters
(`';'`, `'|'`, `'&'`, newline, NUL — so that segmentation reproduces the
segments), then any command joining `s` with the other segments in any
order via any mix of the separators classifies High. -/
theorem c7_risk_monotonic_for_clean_segments :
    ∀ (s first : Str) (rest : List (Sep × Str)),
      command_risk_level s = CommandRiskLevel.high →
      (∀ u ∈ first :: rest.map Prod.snd, sepFree u = true ∧ u ≠ []) →
      s ∈ first :: rest.map Prod.snd →
      command_risk_level (joinCmd first rest) = CommandRiskLevel.high := by
  intro s first rest hhigh hclean hmem
  have hstep : segRiskStep s = .high :=
    segRiskStep_high_of_single (hclean s hmem).1 hhigh
  unfold command_risk_level
  rw [segmentsOf_join rest first (hclean first (List.mem_cons_self _ _)).1
    (fun q hq => hclean q.2
      (List.mem_cons_of_mem _ (List.mem_map_of_mem _ hq)))]
  exact riskLoop_high_of_mem hmem hstep false

/-- Witness for C7 (amended): the High segment `"ssh x"` joined with the
clean segment `"ls"` via `';'` yields a High command. -/
theorem c7_risk_monotonic_for_clean_segments_witness :
    command_risk_level (joinCmd (str "ssh x") [(Sep.semi, str "ls")])
      = CommandRiskLevel.high :=
  c7_risk_monotonic_for_clean_segments (str "ssh x") (str "ssh x")
    [(Sep.semi, str "ls")] (by decide) (by decide) (by decide)

end ZeroClaw
